import Mathlib

/-!
Verification of the durable message log core of `src/server.js`:
the append-only JSONL event log, the in-memory live index (`messages` Map),
ownership resolution (`lookupMessageOwner`), bounded history reconstruction
(`readRecentMessages`), the `delete_message` handler and the `GET /messages`
endpoint.

Modelling conventions:
* A parsed JSONL line is an `Event`: either a create record (the payload
  built in the `message` handler and persisted by `rememberMessage`) or a
  delete tombstone (`{type:"delete", id, timestamp, by}`).
* The file contents are the list of parsed records in file order; a read
  error (`fs.readFile`/`fs.promises.readFile` failing) is `none`.
* JavaScript string truthiness tests (`obj.id`, `obj.username`, `!owner`,
  `!me`) are modelled as `≠ ""`.
* The `messages` Map is an association list looked up by first match;
  `Map.set` is modelled by consing (first match wins, same observable
  behaviour) and `Map.delete` by filtering the key out.
* `fs.appendFile` is invoked with a no-op callback inside `try`/`catch`;
  whether the append physically lands is modelled by an explicit
  `appendOk : Bool` argument, and the code's (absent) error handling is
  reflected by the fact that nothing else depends on it.
* JavaScript `Array.prototype.sort` is stable and here ascending by
  `timestamp`; it is modelled by the stable `List.insertionSort`.
-/

namespace Rover

/-- A create-message record as built by the `message` handler and written to
`data/messages.jsonl` by `rememberMessage`. -/
structure Msg where
  id : String
  username : String
  kind : String
  text : String
  url : Option String
  mime : Option String
  timestamp : Nat
deriving DecidableEq, Repr

/-- One parsed line of the append-only log: a create record or a delete
tombstone `{type:"delete", id, timestamp, by}`. -/
inductive Event where
  | createE (m : Msg)
  | deleteE (id : String) (timestamp : Nat) (byUser : String)
deriving DecidableEq, Repr

/-- A value of the in-memory `messages` Map: `{ owner, type, url }`. -/
structure IdxEntry where
  owner : String
  kind : String
  url : Option String
deriving DecidableEq, Repr

/-- The state touched by the log core: the live index (`messages` Map) and
the durable log (`data/messages.jsonl`, parsed). -/
structure St where
  index : List (String × IdxEntry)
  log : List Event
deriving DecidableEq, Repr

/-- `messages.get(id)` on the association-list model of the Map. -/
def lookupIdx (idx : List (String × IdxEntry)) (id : String) : Option IdxEntry :=
  (idx.find? (fun p => p.1 == id)).map (·.2)

/-- Result of `lookupMessageOwner`: `{owner}`, `{deleted:true}`, or
`{owner:null, deleted:false}`. -/
inductive Resolved where
  | found (owner : String)
  | deletedR
  | unknownR
deriving DecidableEq, Repr

/-- The loop body of `lookupMessageOwner`, walking the records most recent
first (the argument is the reversed log).  For each record: a delete with
matching id returns `{deleted:true}`; otherwise a record with matching id and
truthy `username` returns its owner (delete records carry `by`, not
`username`, so only create records can match here). -/
def scanBack (id : String) : List Event → Resolved
  | [] => .unknownR
  | .deleteE did _ _ :: rest =>
      if did = id then .deletedR else scanBack id rest
  | .createE m :: rest =>
      if m.id = id ∧ m.username ≠ "" then .found m.username else scanBack id rest

/-- `lookupMessageOwner(id)`: read the whole file and scan the lines from the
last one backward. -/
def lookupMessageOwner (log : List Event) (id : String) : Resolved :=
  scanBack id log.reverse

/-- The scan window of `readRecentMessages`: `Math.max(limit * 5, maxScan)`
with `maxScan = 5000`. -/
def windowSize (limit : Nat) : Nat := max (limit * 5) 5000

/-- `l.slice(Math.max(0, l.length - n))`: the last `n` elements. -/
def takeLast (n : Nat) (l : List α) : List α := l.drop (l.length - n)

/-- Ascending-timestamp order used by `filtered.sort((a,b) =>
(a.timestamp||0)-(b.timestamp||0))`. -/
def tsLE (a b : Msg) : Prop := a.timestamp ≤ b.timestamp

instance : DecidableRel tsLE := fun a b => Nat.decLe a.timestamp b.timestamp

instance : IsTotal Msg tsLE := ⟨fun a b => Nat.le_total a.timestamp b.timestamp⟩

instance : IsTrans Msg tsLE := ⟨fun _ _ _ h h' => Nat.le_trans h h'⟩

/-- Tombstone ids collected from a slice of records: deletes with a truthy
id (`obj.type === "delete" && obj.id`). -/
def sliceTombstones (slice : List Event) : List String :=
  slice.filterMap fun e =>
    match e with
    | .deleteE did _ _ => if did = "" then none else some did
    | .createE _ => none

/-- The `all` array collected from a slice: non-delete records with a truthy
id (`obj && obj.id`); delete records were consumed by the tombstone branch. -/
def sliceMsgs (slice : List Event) : List Msg :=
  slice.filterMap fun e =>
    match e with
    | .createE m => if m.id = "" then none else some m
    | .deleteE _ _ _ => none

/-- `readRecentMessages(limit)`: on a read error resolve `[]`; otherwise
slice the last `max(limit*5, 5000)` lines, collect tombstones, keep records
whose id is not tombstoned, sort ascending by timestamp, and resolve the last
`limit` entries. -/
def readRecentMessages (limit : Nat) (contents : Option (List Event)) : List Msg :=
  match contents with
  | none => []
  | some lines =>
      let slice := takeLast (windowSize limit) lines
      let tombstones := sliceTombstones slice
      let all := sliceMsgs slice
      let filtered := all.filter fun m => !(tombstones.contains m.id)
      let sorted := List.insertionSort tsLE filtered
      takeLast limit sorted

/-- `readRecentMessages` on a successfully read log. -/
def recentMessages (limit : Nat) (log : List Event) : List Msg :=
  readRecentMessages limit (some log)

/-- `rememberMessage(m)`: set the live-index entry and push the id, then
fire-and-forget an append of the JSON line.  `appendOk` is whether the append
physically lands; the code passes a no-op callback and wraps the call in
`try`/`catch`, so no outcome is observed and the index mutation stands in
either case. -/
def rememberMessage (st : St) (m : Msg) (appendOk : Bool) : St :=
  { index := (m.id, ⟨m.username, m.kind, m.url⟩) :: st.index,
    log := if appendOk then st.log ++ [Event.createE m] else st.log }

/-- Message creation with the append landing (the normal path). -/
def createOp (st : St) (m : Msg) : St := rememberMessage st m true

/-- The `delete_message` handler.  `requester` is the caller's username
(`""` when absent), `ts` is `Date.now()` for the tombstone and `appendOk` is
whether the fire-and-forget tombstone append lands.  Returns the new state
and the value passed to `ack`. -/
def deleteMessage (st : St) (id requester : String) (ts : Nat) (appendOk : Bool) :
    St × Bool :=
  if requester = "" then (st, false)
  else
    let fromIdx : Option String :=
      match lookupIdx st.index id with
      | some e => if e.owner = "" then none else some e.owner
      | none => none
    let ownerInfo : Option (Option String) :=
      match fromIdx with
      | some o => some (some o)
      | none =>
          match lookupMessageOwner st.log id with
          | .deletedR => none
          | .found o => some (some o)
          | .unknownR => some none
    match ownerInfo with
    | none => (st, false)
    | some none => (st, false)
    | some (some owner) =>
        if owner = "" ∨ owner ≠ requester then (st, false)
        else
          ({ index := st.index.filter fun p => !(p.1 == id),
             log := if appendOk then st.log ++ [Event.deleteE id ts requester]
                    else st.log },
           true)

/-- Deletion with the tombstone append landing (the normal path). -/
def deleteOp (st : St) (id requester : String) (ts : Nat) : St × Bool :=
  deleteMessage st id requester ts true

/-- Effective limit of `GET /messages`:
`Math.max(1, Math.min(1000, parseInt(req.query.limit, 10) || 200))`.
`none` is an absent or unparseable parameter (`parseInt` gives `NaN`); both
`NaN` and `0` are falsy, so `|| 200` replaces them with the default. -/
def effectiveLimit (parsed : Option Int) : Int :=
  let v : Int :=
    match parsed with
    | none => 200
    | some n => if n = 0 then 200 else n
  max 1 (min 1000 v)

/-- `GET /messages`: compute the effective limit, read the recent messages,
respond with the JSON array. -/
def messagesEndpoint (parsed : Option Int) (contents : Option (List Event)) :
    List Msg :=
  readRecentMessages (effectiveLimit parsed).toNat contents

/-- Ids of the create records of a log. -/
def createIds (log : List Event) : List String :=
  log.filterMap fun e =>
    match e with
    | .createE m => some m.id
    | .deleteE _ _ _ => none

/-- Whether the log holds a delete tombstone for `id`. -/
def hasTombstone (log : List Event) (id : String) : Bool :=
  log.any fun e =>
    match e with
    | .deleteE did _ _ => did == id
    | .createE _ => false

/-- States reachable by the server: start empty, create messages through the
`message` handler (which guarantees a non-empty username via the
`"User-…"` fallback, and a fresh non-empty id from `newId()`), run the
`delete_message` handler, or restart the process (the Map is lost, the
file survives). -/
inductive Reachable : St → Prop where
  | init : Reachable ⟨[], []⟩
  | create {st : St} (m : Msg) : Reachable st → m.username ≠ "" → m.id ≠ "" →
      m.id ∉ createIds st.log → Reachable (createOp st m)
  | del {st : St} (id requester : String) (ts : Nat) : Reachable st →
      Reachable (deleteOp st id requester ts).1
  | restart {st : St} : Reachable st → Reachable ⟨[], st.log⟩

/-- The log holds a create record for `id` owned by `owner`. -/
def ownsCreate (log : List Event) (id owner : String) : Prop :=
  ∃ m : Msg, Event.createE m ∈ log ∧ m.id = id ∧ m.username = owner

/-- The id carried by a record (`obj.id` on either record shape). -/
def eventId : Event → String
  | .createE m => m.id
  | .deleteE did _ _ => did

/-- Ownership resolution as §4.3 of the spec words it, for comparison with
`lookupMessageOwner`: scan from the tail backward; the first record whose id
matches decides — a delete means `Deleted`, a create means
`Exists(owner = username)`, and an exhausted scan means `Unknown`. -/
def specResolve (log : List Event) (id : String) : Resolved :=
  match log.reverse.find? (fun e => eventId e == id) with
  | some (.deleteE _ _ _) => .deletedR
  | some (.createE m) => .found m.username
  | none => .unknownR

/-- History reconstruction as §4.4 of the spec words it, applied to an
already-sliced suffix: collect all delete ids into a tombstone set, keep the
create events whose id is not tombstoned, sort ascending by timestamp, and
return the last `limit` entries. -/
def specRecent (limit : Nat) (slice : List Event) : List Msg :=
  let tomb := slice.filterMap fun e =>
    match e with
    | .deleteE did _ _ => some did
    | .createE _ => none
  let survivors := slice.filterMap fun e =>
    match e with
    | .createE m => some m
    | .deleteE _ _ _ => none
  let keep := survivors.filter fun m => !(tomb.contains m.id)
  takeLast limit (List.insertionSort tsLE keep)

/-- Create records carry the non-empty username and non-empty id that the
`message` handler guarantees (`"User-…"` fallback, `newId()` format). -/
def UsersOk (log : List Event) : Prop :=
  ∀ m : Msg, Event.createE m ∈ log → m.username ≠ "" ∧ m.id ≠ ""

/-- Create ids are unique within the log (`newId()` responsibility). -/
def UniqIds (log : List Event) : Prop := (createIds log).Nodup

/-- Every delete tombstone is preceded by a create record for its id. -/
def DelAfterCreate (log : List Event) : Prop :=
  ∀ l1 l2 did ts b, log = l1 ++ Event.deleteE did ts b :: l2 →
    ∃ m : Msg, Event.createE m ∈ l1 ∧ m.id = did

/-- Log-only well-formedness maintained by the code paths. -/
def WFlog (log : List Event) : Prop :=
  UsersOk log ∧ UniqIds log ∧ DelAfterCreate log

/-- Every live-index entry matches an un-tombstoned create record of the log
with the same id and owner. -/
def IdxOk (st : St) : Prop :=
  ∀ p ∈ st.index, ∃ m : Msg, Event.createE m ∈ st.log ∧ m.id = p.1 ∧
    p.2.owner = m.username ∧ hasTombstone st.log p.1 = false

/-- Well-formedness of the full state. -/
def WF (st : St) : Prop := WFlog st.log ∧ IdxOk st

/-- Concrete message used by witnesses. -/
def mAlice : Msg := ⟨"m1", "alice", "text", "hi", none, none, 100⟩

/-- Concrete second message used by witnesses. -/
def mBob : Msg := ⟨"m2", "bob", "text", "yo", none, none, 300⟩

/-- Concrete state with one message, used by witnesses. -/
def stOne : St := createOp ⟨[], []⟩ mAlice

/-- Scenario D message with timestamp 100. -/
def mD100 : Msg := ⟨"d1", "alice", "text", "a", none, none, 100⟩

/-- Scenario D message with timestamp 300. -/
def mD300 : Msg := ⟨"d2", "alice", "text", "b", none, none, 300⟩

/-- Scenario D message with timestamp 200. -/
def mD200 : Msg := ⟨"d3", "alice", "text", "c", none, none, 200⟩

/-! ### List helpers -/

theorem takeLast_length_le (n : Nat) (l : List α) : (takeLast n l).length ≤ n := by
  simp only [takeLast, List.length_drop]
  omega

theorem takeLast_eq_self {n : Nat} {l : List α} (h : l.length ≤ n) : takeLast n l = l := by
  simp [takeLast, Nat.sub_eq_zero_of_le h]

theorem mem_takeLast {a : α} {n : Nat} {l : List α} (h : a ∈ takeLast n l) : a ∈ l :=
  List.mem_of_mem_drop h

theorem takeLast_sublist (n : Nat) (l : List α) : (takeLast n l).Sublist l :=
  List.drop_sublist _ _

theorem takeLast_takeLast {n w : Nat} (l : List α) (h : n ≤ w) :
    takeLast n (takeLast w l) = takeLast n l := by
  simp only [takeLast, List.drop_drop, List.length_drop]
  congr 1
  omega

theorem takeLast_append_of_le {w : Nat} (a b : List α) (h : b.length ≤ w) :
    takeLast w (a ++ b) = takeLast (w - b.length) a ++ b := by
  simp only [takeLast, List.length_append]
  rw [List.drop_append_eq_append_drop]
  have h1 : a.length + b.length - w = a.length - (w - b.length) := by omega
  rw [h1]
  have h2 : a.length - (w - b.length) - a.length = 0 := by omega
  rw [h2, List.drop_zero]

theorem takeLast_append_of_ge {w : Nat} (a b : List α) (h : w ≤ b.length) :
    takeLast w (a ++ b) = takeLast w b := by
  simp only [takeLast, List.length_append]
  have h1 : a.length + b.length - w = a.length + (b.length - w) := by omega
  rw [h1, List.drop_append]

theorem getLast?_drop {k : Nat} {l : List α} (h : k < l.length) :
    (l.drop k).getLast? = l.getLast? := by
  have hne : l.drop k ≠ [] := by
    rw [ne_eq, List.drop_eq_nil_iff]
    omega
  obtain ⟨x, hx⟩ := Option.ne_none_iff_exists'.mp (mt List.getLast?_eq_none_iff.mp hne)
  conv_rhs => rw [← List.take_append_drop k l]
  rw [List.getLast?_append, hx]
  simp [hx]

theorem getLast?_takeLast {n : Nat} (l : List α) (h : 1 ≤ n) :
    (takeLast n l).getLast? = l.getLast? := by
  cases l with
  | nil => simp [takeLast]
  | cons a as =>
      exact getLast?_drop (by simp only [List.length_cons]; omega)

/-! ### C10: missing or unreadable log file -/

/-- C10: for every limit, if the log file cannot be read at all,
`readRecentMessages` resolves the empty list instead of propagating the
error, and the history endpoint responds with the empty JSON array. -/
theorem unreadable_log_yields_empty_history :
    (∀ limit : Nat, readRecentMessages limit none = []) ∧
    (∀ parsed : Option Int, messagesEndpoint parsed none = []) :=
  ⟨fun _ => rfl, fun _ => rfl⟩

/-! ### C9: effective limit of GET /messages -/

/-- C9 counterexample: a supplied limit of `0` is parsed by `parseInt` to the
falsy `0`, so `|| 200` replaces it with the default; the effective limit is
`200`, not the clamp of `0` into `[1,1000]` (which is `1`). -/
theorem limit_zero_defaults_not_clamped :
    effectiveLimit (some 0) = 200 ∧ max 1 (min 1000 (0 : Int)) = 1 ∧
    effectiveLimit (some 0) ≠ max 1 (min 1000 (0 : Int)) := by
  refine ⟨by decide, by decide, by decide⟩

/-- C9 amended: the effective limit is `200` when the parameter is absent or
unparseable, and also when it parses to `0` (both `NaN` and `0` are falsy in
`parseInt(...) || 200`); any other supplied integer is clamped into
`[1,1000]`, and the effective limit always lies within `[1,1000]`. -/
theorem effective_limit_clamped :
    effectiveLimit none = 200 ∧
    effectiveLimit (some 0) = 200 ∧
    (∀ n : Int, n ≠ 0 → effectiveLimit (some n) = max 1 (min 1000 n)) ∧
    (∀ parsed : Option Int, 1 ≤ effectiveLimit parsed ∧ effectiveLimit parsed ≤ 1000) := by
  refine ⟨rfl, rfl, ?_, ?_⟩
  · intro n hn
    simp [effectiveLimit, hn]
  · intro parsed
    have h1 : ∀ v : Int, 1 ≤ max 1 (min 1000 v) := fun v => le_max_left 1 _
    have h2 : ∀ v : Int, max 1 (min 1000 v) ≤ 1000 := fun v =>
      max_le (by norm_num) (min_le_left _ _)
    cases parsed with
    | none => exact ⟨h1 200, h2 200⟩
    | some n => exact ⟨h1 _, h2 _⟩

/-- C9 witness: a non-zero supplied value really is clamped. -/
theorem effective_limit_clamped_witness :
    effectiveLimit (some 5000) = max 1 (min 1000 (5000 : Int)) :=
  effective_limit_clamped.2.2.1 5000 (by decide)

/-! ### C3: append failures are swallowed, not rolled back -/

/-- C3 counterexample: creating a message whose log append fails still
installs the live-index entry — the mutation is neither reported as failed
nor rolled back, so the index holds an id the durable log does not. -/
theorem failed_append_diverges :
    (rememberMessage ⟨[], []⟩ mAlice false).index =
      [("m1", ⟨"alice", "text", none⟩)] ∧
    (rememberMessage ⟨[], []⟩ mAlice false).log = [] := by
  refine ⟨rfl, rfl⟩

/-- C3 amended: the code never observes the append outcome
(`fs.appendFile` gets a no-op callback inside `try`/`catch`): on create the
live-index insertion is performed before the append and stands even if the
append fails, on delete the acknowledgement and the index removal are
identical whether or not the tombstone append lands, and in both cases a
failed append leaves the log unchanged while the index mutation is applied,
so the in-memory index can diverge from the durably written log. -/
theorem append_failure_swallowed (st : St) (m : Msg) (id req : String) (ts : Nat) :
    (rememberMessage st m false).index =
      (m.id, ⟨m.username, m.kind, m.url⟩) :: st.index ∧
    (rememberMessage st m false).log = st.log ∧
    (deleteMessage st id req ts false).2 = (deleteMessage st id req ts true).2 ∧
    (deleteMessage st id req ts false).1.index =
      (deleteMessage st id req ts true).1.index ∧
    (deleteMessage st id req ts false).1.log = st.log := by
  refine ⟨rfl, rfl, ?_, ?_, ?_⟩ <;>
    · simp only [deleteMessage]
      split
      · rfl
      · split
        · rfl
        · rfl
        · split
          · rfl
          · rfl

/-! ### Backward-scan lemmas -/

theorem lookup_append_delete (log : List Event) (did : String) (ts : Nat) (b id : String) :
    lookupMessageOwner (log ++ [Event.deleteE did ts b]) id =
      if did = id then .deletedR else lookupMessageOwner log id := by
  simp only [lookupMessageOwner, List.reverse_append, List.reverse_cons, List.reverse_nil,
    List.nil_append, List.singleton_append, scanBack]

theorem lookup_append_create (log : List Event) (m : Msg) (id : String) :
    lookupMessageOwner (log ++ [Event.createE m]) id =
      if m.id = id ∧ m.username ≠ "" then .found m.username else lookupMessageOwner log id := by
  simp only [lookupMessageOwner, List.reverse_append, List.reverse_cons, List.reverse_nil,
    List.nil_append, List.singleton_append, scanBack]

theorem scanBack_found {id o : String} {l : List Event} (h : scanBack id l = .found o) :
    ∃ m : Msg, Event.createE m ∈ l ∧ m.id = id ∧ m.username = o ∧ o ≠ "" := by
  induction l with
  | nil => simp [scanBack] at h
  | cons e rest ih =>
    cases e with
    | deleteE did ts b =>
      simp only [scanBack] at h
      by_cases hd : did = id
      · rw [if_pos hd] at h
        simp at h
      · rw [if_neg hd] at h
        obtain ⟨m, hm, h1, h2, h3⟩ := ih h
        exact ⟨m, List.mem_cons_of_mem _ hm, h1, h2, h3⟩
    | createE m0 =>
      simp only [scanBack] at h
      by_cases hc : m0.id = id ∧ m0.username ≠ ""
      · rw [if_pos hc] at h
        injection h with h'
        exact ⟨m0, List.mem_cons_self _ _, hc.1, h', h' ▸ hc.2⟩
      · rw [if_neg hc] at h
        obtain ⟨m, hm, h1, h2, h3⟩ := ih h
        exact ⟨m, List.mem_cons_of_mem _ hm, h1, h2, h3⟩

theorem lookup_found {log : List Event} {id o : String}
    (h : lookupMessageOwner log id = .found o) :
    ∃ m : Msg, Event.createE m ∈ log ∧ m.id = id ∧ m.username = o ∧ o ≠ "" := by
  obtain ⟨m, hm, h1, h2, h3⟩ := scanBack_found h
  exact ⟨m, List.mem_reverse.mp hm, h1, h2, h3⟩

theorem scanBack_eq_find {id : String} {l : List Event}
    (h : ∀ m : Msg, Event.createE m ∈ l → m.username ≠ "") :
    scanBack id l =
      (match l.find? (fun e => eventId e == id) with
       | some (.deleteE _ _ _) => Resolved.deletedR
       | some (.createE m) => Resolved.found m.username
       | none => Resolved.unknownR) := by
  induction l with
  | nil => simp [scanBack]
  | cons e rest ih =>
    cases e with
    | deleteE did ts b =>
      by_cases hd : did = id
      · simp [scanBack, hd, eventId, List.find?_cons_of_pos]
      · rw [List.find?_cons_of_neg _ (by simp [eventId, hd])]
        simp only [scanBack, if_neg hd]
        exact ih (fun m hm => h m (List.mem_cons_of_mem _ hm))
    | createE m0 =>
      have hu : m0.username ≠ "" := h m0 (List.mem_cons_self _ _)
      by_cases hc : m0.id = id
      · rw [List.find?_cons_of_pos _ (by simp [eventId, hc])]
        simp [scanBack, hc, hu]
      · rw [List.find?_cons_of_neg _ (by simp [eventId, hc])]
        simp only [scanBack, if_neg (by simp [hc] : ¬(m0.id = id ∧ m0.username ≠ ""))]
        exact ih (fun m hm => h m (List.mem_cons_of_mem _ hm))

/-! ### C5: ownership resolution by backward scan -/

/-- C5: for an id not served by the Live Index, the fallback
`lookupMessageOwner` scans the log from the most recent record backward and
the first record whose id matches decides the outcome — a Delete yields
Deleted, a Create yields Exists with that record's username as owner, and an
exhausted scan yields Unknown — given that the log's create records carry the
non-empty usernames the message handler guarantees. -/
theorem resolver_first_match_decides (log : List Event) (id : String)
    (h : ∀ m : Msg, Event.createE m ∈ log → m.username ≠ "") :
    lookupMessageOwner log id = specResolve log id := by
  unfold lookupMessageOwner specResolve
  exact scanBack_eq_find (fun m hm => h m (List.mem_reverse.mp hm))

/-- C5 witness: the scan and the spec description agree on a concrete log. -/
theorem resolver_first_match_decides_witness :
    lookupMessageOwner [Event.createE mAlice, Event.deleteE "m1" 150 "alice"] "m1" =
      specResolve [Event.createE mAlice, Event.deleteE "m1" 150 "alice"] "m1" :=
  resolver_first_match_decides _ "m1" (by
    intro m hm
    simp at hm
    subst hm
    decide)

/-! ### Log well-formedness lemmas -/

theorem hasTombstone_iff {log : List Event} {id : String} :
    hasTombstone log id = true ↔ ∃ ts b, Event.deleteE id ts b ∈ log := by
  simp only [hasTombstone, List.any_eq_true]
  constructor
  · rintro ⟨e, he, hm⟩
    cases e with
    | createE m => simp at hm
    | deleteE did ts b =>
        have : did = id := by simpa using hm
        exact ⟨ts, b, this ▸ he⟩
  · rintro ⟨ts, b, hb⟩
    exact ⟨Event.deleteE id ts b, hb, by simp⟩

theorem hasTombstone_append {l l' : List Event} {id : String} :
    hasTombstone (l ++ l') id = (hasTombstone l id || hasTombstone l' id) := by
  simp [hasTombstone]

theorem mem_createIds {log : List Event} {id : String} :
    id ∈ createIds log ↔ ∃ m : Msg, Event.createE m ∈ log ∧ m.id = id := by
  simp only [createIds, List.mem_filterMap]
  constructor
  · rintro ⟨e, he, hf⟩
    cases e with
    | createE m => exact ⟨m, he, by simpa using hf⟩
    | deleteE did ts b => simp at hf
  · rintro ⟨m, hm, hid⟩
    exact ⟨Event.createE m, hm, by simp [hid]⟩

theorem createIds_append (l l' : List Event) :
    createIds (l ++ l') = createIds l ++ createIds l' :=
  List.filterMap_append l l' _

theorem create_unique {log : List Event} (h : UniqIds log) {m m' : Msg}
    (h1 : Event.createE m ∈ log) (h2 : Event.createE m' ∈ log) (hid : m.id = m'.id) :
    m = m' := by
  induction log with
  | nil => cases h1
  | cons e rest ih =>
    cases e with
    | createE m0 =>
      have hn : m0.id ∉ createIds rest ∧ (createIds rest).Nodup := by
        have := h
        simp only [UniqIds, createIds, List.filterMap_cons] at this
        exact List.nodup_cons.mp this
      rcases List.mem_cons.mp h1 with he1 | ht1
      · rcases List.mem_cons.mp h2 with he2 | ht2
        · have a1 : m = m0 := by injection he1
          have a2 : m' = m0 := by injection he2
          rw [a1, a2]
        · exfalso
          have a1 : m = m0 := by injection he1
          exact hn.1 (mem_createIds.mpr ⟨m', ht2, by rw [← hid, a1]⟩)
      · rcases List.mem_cons.mp h2 with he2 | ht2
        · exfalso
          have a2 : m' = m0 := by injection he2
          exact hn.1 (mem_createIds.mpr ⟨m, ht1, by rw [hid, a2]⟩)
        · exact ih hn.2 ht1 ht2
    | deleteE did ts b =>
      have hn : UniqIds rest := by
        have := h
        simp only [UniqIds, createIds, List.filterMap_cons] at this
        exact this
      have ht1 : Event.createE m ∈ rest := by
        rcases List.mem_cons.mp h1 with he | ht
        · cases he
        · exact ht
      have ht2 : Event.createE m' ∈ rest := by
        rcases List.mem_cons.mp h2 with he | ht
        · cases he
        · exact ht
      exact ih hn ht1 ht2

theorem WFlog_of_concat {l : List Event} {e : Event} (h : WFlog (l ++ [e])) : WFlog l := by
  obtain ⟨hu, hn, hd⟩ := h
  refine ⟨?_, ?_, ?_⟩
  · intro m hm
    exact hu m (List.mem_append_left _ hm)
  · have := hn
    rw [UniqIds, createIds_append] at this
    exact this.of_append_left
  · intro l1 l2 did ts b heq
    exact hd l1 (l2 ++ [e]) did ts b (by rw [heq]; simp)

theorem lookup_deleted_of_tombstone {log : List Event} {id : String}
    (hw : WFlog log) (ht : hasTombstone log id = true) :
    lookupMessageOwner log id = .deletedR := by
  induction log using List.reverseRecOn with
  | nil => simp [hasTombstone] at ht
  | append_singleton l e ih =>
    have hwl : WFlog l := WFlog_of_concat hw
    cases e with
    | deleteE did ts b =>
      rw [lookup_append_delete]
      by_cases hd : did = id
      · rw [if_pos hd]
      · rw [if_neg hd]
        apply ih hwl
        rw [hasTombstone_append] at ht
        rcases Bool.or_eq_true_iff.mp ht with h | h
        · exact h
        · exfalso
          obtain ⟨ts', b', hmem⟩ := hasTombstone_iff.mp h
          have : Event.deleteE id ts' b' = Event.deleteE did ts b := by simpa using hmem
          injection this with h1 h2 h3
          exact hd h1.symm
    | createE m =>
      have htl : hasTombstone l id = true := by
        rw [hasTombstone_append] at ht
        rcases Bool.or_eq_true_iff.mp ht with h | h
        · exact h
        · exfalso
          obtain ⟨ts', b', hmem⟩ := hasTombstone_iff.mp h
          simp at hmem
      have hmid : ¬(m.id = id ∧ m.username ≠ "") := by
        rintro ⟨hcid, _⟩
        obtain ⟨ts', b', hmem⟩ := hasTombstone_iff.mp htl
        obtain ⟨l1, l2, hsplit⟩ := List.append_of_mem hmem
        obtain ⟨m1, hm1, hm1id⟩ := hw.2.2 l1 (l2 ++ [Event.createE m]) id ts' b'
          (by rw [hsplit]; simp)
        have hnotin : m.id ∉ createIds l := by
          have := hw.2.1
          rw [UniqIds, createIds_append] at this
          have hdisj := List.nodup_append.mp this
          intro hin
          exact hdisj.2.2 hin (by simp [createIds])
        exact hnotin (mem_createIds.mpr ⟨m1, by rw [hsplit]; simp [hm1], by rw [hm1id, hcid]⟩)
      rw [lookup_append_create, if_neg hmid]
      exact ih (WFlog_of_concat hw) htl

theorem lookup_found_of_create {log : List Event} {id : String} {m : Msg}
    (hw : WFlog log) (ht : hasTombstone log id = false)
    (hm : Event.createE m ∈ log) (hid : m.id = id) :
    lookupMessageOwner log id = .found m.username := by
  induction log using List.reverseRecOn with
  | nil => cases hm
  | append_singleton l e ih =>
    have hwl : WFlog l := WFlog_of_concat hw
    have htl : hasTombstone l id = false := by
      rw [hasTombstone_append] at ht
      exact (Bool.or_eq_false_iff.mp ht).1
    cases e with
    | deleteE did ts b =>
      have hd : did ≠ id := by
        intro hq
        rw [hasTombstone_append] at ht
        have := (Bool.or_eq_false_iff.mp ht).2
        simp [hasTombstone, hq] at this
      rw [lookup_append_delete, if_neg hd]
      have hm' : Event.createE m ∈ l := by
        rcases List.mem_append.mp hm with h | h
        · exact h
        · simp at h
      exact ih hwl htl hm'
    | createE m0 =>
      rcases List.mem_append.mp hm with hml | hme
      · have hm0 : ¬(m0.id = id ∧ m0.username ≠ "") := by
          rintro ⟨hq, _⟩
          have := hw.2.1
          rw [UniqIds, createIds_append] at this
          have hdisj := List.nodup_append.mp this
          exact hdisj.2.2 (mem_createIds.mpr ⟨m, hml, hid⟩) (by simp [createIds, hq])
        rw [lookup_append_create, if_neg hm0]
        exact ih hwl htl hml
      · have hmm : m0 = m := by
          have : Event.createE m = Event.createE m0 := by simpa using hme
          injection this with h'
          exact h'.symm
        have husr : m.username ≠ "" := (hw.1 m hm).1
        rw [lookup_append_create, hmm, if_pos ⟨hid, husr⟩]

/-! ### Live-index lookup lemmas -/

theorem lookupIdx_some_mem {idx : List (String × IdxEntry)} {id : String} {e : IdxEntry}
    (h : lookupIdx idx id = some e) : (id, e) ∈ idx := by
  simp only [lookupIdx, Option.map_eq_some'] at h
  obtain ⟨p, hp, hpe⟩ := h
  have hmem := List.mem_of_find?_eq_some hp
  have hpred : p.1 = id := by simpa using List.find?_some hp
  have : p = (id, e) := Prod.ext hpred hpe
  exact this ▸ hmem

theorem lookupIdx_filter_self (idx : List (String × IdxEntry)) (id : String) :
    lookupIdx (idx.filter fun p => !(p.1 == id)) id = none := by
  simp only [lookupIdx]
  rw [List.find?_eq_none.mpr]
  · rfl
  · intro p hp
    have h := (List.mem_filter.mp hp).2
    simp at h ⊢
    exact h

/-! ### Case analysis of the delete handler -/

theorem deleteMessage_eq (st : St) (id req : String) (ts : Nat) (ok : Bool) :
    deleteMessage st id req ts ok = (st, false) ∨
    (req ≠ "" ∧
     deleteMessage st id req ts ok =
       ({ index := st.index.filter fun p => !(p.1 == id),
          log := if ok then st.log ++ [Event.deleteE id ts req] else st.log }, true)) := by
  by_cases hr : req = ""
  · left
    simp [deleteMessage, hr]
  · rcases hIdx : lookupIdx st.index id with _ | e
    · rcases hLook : lookupMessageOwner st.log id with o | _ | _
      · by_cases ho : o = "" ∨ o ≠ req
        · left
          simp [deleteMessage, hr, hIdx, hLook, ho]
        · right
          exact ⟨hr, by simp [deleteMessage, hr, hIdx, hLook, ho]⟩
      · left
        simp [deleteMessage, hr, hIdx, hLook]
      · left
        simp [deleteMessage, hr, hIdx, hLook]
    · by_cases he : e.owner = ""
      · rcases hLook : lookupMessageOwner st.log id with o | _ | _
        · by_cases ho : o = "" ∨ o ≠ req
          · left
            simp [deleteMessage, hr, hIdx, he, hLook, ho]
          · right
            exact ⟨hr, by simp [deleteMessage, hr, hIdx, he, hLook, ho]⟩
        · left
          simp [deleteMessage, hr, hIdx, he, hLook]
        · left
          simp [deleteMessage, hr, hIdx, he, hLook]
      · by_cases ho : e.owner = "" ∨ e.owner ≠ req
        · have honr : e.owner ≠ req := ho.resolve_left he
          left
          simp [deleteMessage, hr, hIdx, he, honr]
        · have hoq : e.owner = req := not_not.mp (not_or.mp ho).2
          right
          exact ⟨hr, by simp [deleteMessage, hr, hIdx, he, hoq]⟩

theorem deleteMessage_false_state {st : St} {id req : String} {ts : Nat} {ok : Bool}
    (h : (deleteMessage st id req ts ok).2 = false) :
    (deleteMessage st id req ts ok).1 = st := by
  rcases deleteMessage_eq st id req ts ok with heq | ⟨_, heq⟩
  · rw [heq]
  · rw [heq] at h
    simp at h

theorem deleteMessage_true_state {st : St} {id req : String} {ts : Nat} {ok : Bool}
    (h : (deleteMessage st id req ts ok).2 = true) :
    req ≠ "" ∧
    (deleteMessage st id req ts ok).1 =
      { index := st.index.filter fun p => !(p.1 == id),
        log := if ok then st.log ++ [Event.deleteE id ts req] else st.log } := by
  rcases deleteMessage_eq st id req ts ok with heq | ⟨hr, heq⟩
  · rw [heq] at h
    simp at h
  · exact ⟨hr, by rw [heq]⟩

theorem deleteMessage_ack_iff (st : St) (id req : String) (ts : Nat) (ok : Bool)
    (hwf : WF st) :
    (deleteMessage st id req ts ok).2 = true ↔
      ownsCreate st.log id req ∧ hasTombstone st.log id = false := by
  obtain ⟨hwl, hidx⟩ := hwf
  by_cases hr : req = ""
  · have hval : (deleteMessage st id req ts ok).2 = false := by simp [deleteMessage, hr]
    rw [hval]
    simp only [Bool.false_eq_true, false_iff]
    rintro ⟨⟨m, hm, _, hmu⟩, _⟩
    exact (hwl.1 m hm).1 (by rw [hmu, hr])
  · rcases hIdx : lookupIdx st.index id with _ | e
    · rcases hLook : lookupMessageOwner st.log id with o | _ | _
      · obtain ⟨m, hm, hmid, hmo, ho⟩ := lookup_found hLook
        have htf : hasTombstone st.log id = false := by
          cases hcase : hasTombstone st.log id
          · rfl
          · have := lookup_deleted_of_tombstone hwl hcase
            rw [this] at hLook
            simp at hLook
        by_cases hoq : o = req
        · have hval : (deleteMessage st id req ts ok).2 = true := by
            simp [deleteMessage, hr, hIdx, hLook, ho, hoq]
          rw [hval]
          simp only [true_iff]
          exact ⟨⟨m, hm, hmid, by rw [hmo, hoq]⟩, htf⟩
        · have hval : (deleteMessage st id req ts ok).2 = false := by
            simp [deleteMessage, hr, hIdx, hLook, hoq]
          rw [hval]
          simp only [Bool.false_eq_true, false_iff]
          rintro ⟨⟨m', hm', hmid', hmu'⟩, _⟩
          have hmeq : m = m' := create_unique hwl.2.1 hm hm' (by rw [hmid, hmid'])
          exact hoq (by rw [← hmo, hmeq, hmu'])
      · have hval : (deleteMessage st id req ts ok).2 = false := by
          simp [deleteMessage, hr, hIdx, hLook]
        rw [hval]
        simp only [Bool.false_eq_true, false_iff]
        rintro ⟨⟨m', hm', hmid', _⟩, htf⟩
        have := lookup_found_of_create hwl htf hm' hmid'
        rw [this] at hLook
        simp at hLook
      · have hval : (deleteMessage st id req ts ok).2 = false := by
          simp [deleteMessage, hr, hIdx, hLook]
        rw [hval]
        simp only [Bool.false_eq_true, false_iff]
        rintro ⟨⟨m', hm', hmid', _⟩, htf⟩
        have := lookup_found_of_create hwl htf hm' hmid'
        rw [this] at hLook
        simp at hLook
    · obtain ⟨m, hm, hmid, howner, htomb⟩ := hidx (id, e) (lookupIdx_some_mem hIdx)
      have husr : m.username ≠ "" := (hwl.1 m hm).1
      have he : e.owner ≠ "" := by rw [howner]; exact husr
      by_cases hoq : e.owner = req
      · have hval : (deleteMessage st id req ts ok).2 = true := by
          simp [deleteMessage, hr, hIdx, he, hoq]
        rw [hval]
        simp only [true_iff]
        rw [howner] at hoq
        exact ⟨⟨m, hm, hmid, hoq⟩, htomb⟩
      · have hval : (deleteMessage st id req ts ok).2 = false := by
          simp [deleteMessage, hr, hIdx, he, hoq]
        rw [hval]
        simp only [Bool.false_eq_true, false_iff]
        rintro ⟨⟨m', hm', hmid', hmu'⟩, _⟩
        have hmeq : m = m' := create_unique hwl.2.1 hm hm' (by rw [hmid, hmid'])
        exact hoq (by rw [howner, hmeq, hmu'])

/-! ### Preservation of well-formedness -/

theorem createOp_log (st : St) (m : Msg) :
    (createOp st m).log = st.log ++ [Event.createE m] := rfl

theorem createOp_index (st : St) (m : Msg) :
    (createOp st m).index = (m.id, ⟨m.username, m.kind, m.url⟩) :: st.index := rfl

theorem append_singleton_split {a l1 l2 : List α} {x y : α}
    (h : a ++ [x] = l1 ++ y :: l2) :
    (l1 = a ∧ y = x ∧ l2 = []) ∨ ∃ l2', l2 = l2' ++ [x] ∧ a = l1 ++ y :: l2' := by
  rcases List.eq_nil_or_concat l2 with hnil | ⟨l2', z, hz⟩
  · subst hnil
    obtain ⟨h1, h2⟩ := List.append_inj' h (by simp)
    have hxy : x = y := by simpa using h2
    exact Or.inl ⟨h1.symm, hxy.symm, rfl⟩
  · subst hz
    right
    have heq : a ++ [x] = (l1 ++ y :: l2') ++ [z] := by rw [h]; simp
    obtain ⟨h1, h2⟩ := List.append_inj' heq (by simp)
    have hxz : x = z := by simpa using h2
    exact ⟨l2', by rw [hxz, List.concat_eq_append], h1⟩

theorem DelAfterCreate_append_create {log : List Event} (hd : DelAfterCreate log) (m : Msg) :
    DelAfterCreate (log ++ [Event.createE m]) := by
  intro l1 l2 did ts b heq
  rcases append_singleton_split heq with ⟨_, h2, _⟩ | ⟨l2', _, h2⟩
  · exact absurd h2 (by simp)
  · exact hd l1 l2' did ts b h2

theorem DelAfterCreate_append_delete {log : List Event} (hd : DelAfterCreate log)
    {did : String} {ts : Nat} {b : String}
    (hex : ∃ m : Msg, Event.createE m ∈ log ∧ m.id = did) :
    DelAfterCreate (log ++ [Event.deleteE did ts b]) := by
  intro l1 l2 did' ts' b' heq
  rcases append_singleton_split heq with ⟨h1, h2, _⟩ | ⟨l2', _, h2⟩
  · obtain ⟨m1, hm1, hid1⟩ := hex
    injection h2 with e1 e2 e3
    exact ⟨m1, h1 ▸ hm1, by rw [hid1, e1]⟩
  · exact hd l1 l2' did' ts' b' h2

theorem WF_createOp {st : St} {m : Msg} (hwf : WF st) (hu : m.username ≠ "")
    (hi : m.id ≠ "") (hf : m.id ∉ createIds st.log) : WF (createOp st m) := by
  obtain ⟨⟨husers, huniq, hdel⟩, hidx⟩ := hwf
  have hnotomb : hasTombstone st.log m.id = false := by
    cases hcase : hasTombstone st.log m.id
    · rfl
    · exfalso
      obtain ⟨ts', b', hmem⟩ := hasTombstone_iff.mp hcase
      obtain ⟨l1, l2, hsplit⟩ := List.append_of_mem hmem
      obtain ⟨m1, hm1, hid1⟩ := hdel l1 l2 m.id ts' b' hsplit
      exact hf (mem_createIds.mpr ⟨m1, by rw [hsplit]; simp [hm1], hid1⟩)
  refine ⟨⟨?_, ?_, ?_⟩, ?_⟩
  · intro m' hm'
    rw [createOp_log] at hm'
    rcases List.mem_append.mp hm' with h | h
    · exact husers m' h
    · have hmm : m' = m := by simpa using h
      rw [hmm]
      exact ⟨hu, hi⟩
  · show (createIds (createOp st m).log).Nodup
    rw [createOp_log, createIds_append]
    have hone : createIds [Event.createE m] = [m.id] := rfl
    rw [hone, List.nodup_append]
    refine ⟨huniq, List.nodup_singleton _, ?_⟩
    intro a ha hb
    have : a = m.id := by simpa using hb
    exact hf (this ▸ ha)
  · rw [createOp_log]
    exact DelAfterCreate_append_create hdel m
  · intro p hp
    rw [createOp_index] at hp
    rw [createOp_log]
    rcases List.mem_cons.mp hp with h | h
    · refine ⟨m, List.mem_append_right _ (by simp), ?_, ?_, ?_⟩
      · rw [h]
      · rw [h]
      · rw [h, hasTombstone_append, hnotomb]
        simp [hasTombstone]
    · obtain ⟨m1, hm1, hid1, ho1, ht1⟩ := hidx p h
      refine ⟨m1, List.mem_append_left _ hm1, hid1, ho1, ?_⟩
      rw [hasTombstone_append, ht1]
      simp [hasTombstone]

theorem WF_deleteOp {st : St} (hwf : WF st) (id req : String) (ts : Nat) :
    WF (deleteOp st id req ts).1 := by
  show WF (deleteMessage st id req ts true).1
  cases hack : (deleteMessage st id req ts true).2
  · rw [deleteMessage_false_state hack]
    exact hwf
  · obtain ⟨hr, hshape⟩ := deleteMessage_true_state hack
    have hlog : (deleteMessage st id req ts true).1.log =
        st.log ++ [Event.deleteE id ts req] := by
      rw [hshape]
      simp
    have hindex : (deleteMessage st id req ts true).1.index =
        st.index.filter fun p => !(p.1 == id) := by
      rw [hshape]
    have hackiff := (deleteMessage_ack_iff st id req ts true hwf).mp hack
    obtain ⟨⟨m, hm, hmid, hmu⟩, htomb⟩ := hackiff
    obtain ⟨⟨husers, huniq, hdel⟩, hidx⟩ := hwf
    refine ⟨⟨?_, ?_, ?_⟩, ?_⟩
    · rw [hlog]
      intro m' hm'
      rcases List.mem_append.mp hm' with h | h
      · exact husers m' h
      · simp at h
    · show (createIds (deleteMessage st id req ts true).1.log).Nodup
      rw [hlog, createIds_append]
      have hone : createIds [Event.deleteE id ts req] = [] := rfl
      rw [hone, List.append_nil]
      exact huniq
    · rw [hlog]
      exact DelAfterCreate_append_delete hdel ⟨m, hm, hmid⟩
    · intro p hp
      rw [hindex] at hp
      rw [hlog]
      have hmem := (List.mem_filter.mp hp).1
      have hpne : p.1 ≠ id := by
        have h := (List.mem_filter.mp hp).2
        simpa using h
      obtain ⟨m1, hm1, hid1, ho1, ht1⟩ := hidx p hmem
      refine ⟨m1, List.mem_append_left _ hm1, hid1, ho1, ?_⟩
      rw [hasTombstone_append, ht1]
      simp only [Bool.false_or, hasTombstone, List.any_cons, List.any_nil, Bool.or_false]
      simp only [beq_eq_false_iff_ne, ne_eq]
      exact fun h => hpne h.symm

theorem WF_restart {st : St} (hwf : WF st) : WF (⟨[], st.log⟩ : St) :=
  ⟨hwf.1, fun p hp => absurd hp (List.not_mem_nil p)⟩

theorem reachable_WF {st : St} (h : Reachable st) : WF st := by
  induction h with
  | init =>
      refine ⟨⟨?_, ?_, ?_⟩, ?_⟩
      · intro m hm
        exact absurd hm (List.not_mem_nil _)
      · exact List.nodup_nil
      · intro l1 l2 did ts b heq
        simp at heq
      · intro p hp
        exact absurd hp (List.not_mem_nil p)
  | create m _ hu hi hf ih => exact WF_createOp ih hu hi hf
  | del id req ts _ ih => exact WF_deleteOp ih id req ts
  | restart _ ih => exact WF_restart ih

/-! ### C1: ownership invariant of delete -/

/-- C1: in every reachable state, `delete_message(id)` by `requester`
succeeds — appends a tombstone and acknowledges `true` — if and only if the
requester equals the username on that id's original create record and no
effective delete tombstone for the id was appended earlier; in every other
case it acknowledges `false` and leaves the state unchanged. -/
theorem delete_ownership_invariant (st : St) (id req : String) (ts : Nat)
    (h : Reachable st) :
    ((deleteOp st id req ts).2 = true ↔
       ownsCreate st.log id req ∧ hasTombstone st.log id = false) ∧
    ((deleteOp st id req ts).2 = true →
       (deleteOp st id req ts).1.log = st.log ++ [Event.deleteE id ts req]) ∧
    ((deleteOp st id req ts).2 = false → (deleteOp st id req ts).1 = st) := by
  have hwf := reachable_WF h
  refine ⟨deleteMessage_ack_iff st id req ts true hwf, ?_, ?_⟩
  · intro hack
    obtain ⟨hr, hshape⟩ := deleteMessage_true_state hack
    show (deleteMessage st id req ts true).1.log = st.log ++ [Event.deleteE id ts req]
    rw [hshape]
    simp
  · intro hack
    exact deleteMessage_false_state hack

/-- C1 witness: the invariant instantiated in the reachable one-message
state. -/
theorem delete_ownership_invariant_witness :
    ((deleteOp stOne "m1" "alice" 7).2 = true ↔
       ownsCreate stOne.log "m1" "alice" ∧ hasTombstone stOne.log "m1" = false) ∧
    ((deleteOp stOne "m1" "alice" 7).2 = true →
       (deleteOp stOne "m1" "alice" 7).1.log =
         stOne.log ++ [Event.deleteE "m1" 7 "alice"]) ∧
    ((deleteOp stOne "m1" "alice" 7).2 = false →
       (deleteOp stOne "m1" "alice" 7).1 = stOne) :=
  delete_ownership_invariant stOne "m1" "alice" 7
    (Reachable.create mAlice Reachable.init (by decide) (by decide) (by decide))

/-! ### C4: idempotent deletion -/

/-- C4: after a successful delete, a second delete of the same id by the same
owning requester acknowledges `false` and changes nothing — no second
tombstone is appended — and a duplicate tombstone record in the (windowed)
log leaves the result of `recent(N)` exactly as with a single tombstone,
because tombstone ids form a set. -/
theorem idempotent_deletion (st : St) (id req : String) (ts ts2 : Nat)
    (hack : (deleteOp st id req ts).2 = true) :
    ((deleteOp (deleteOp st id req ts).1 id req ts2).2 = false ∧
     (deleteOp (deleteOp st id req ts).1 id req ts2).1 = (deleteOp st id req ts).1) ∧
    (∀ (n : Nat) (log : List Event) (did : String) (dts : Nat) (db : String),
       (∃ dts0 db0, Event.deleteE did dts0 db0 ∈ log) → log.length < 5000 →
       recentMessages n (log ++ [Event.deleteE did dts db]) = recentMessages n log) := by
  simp only [deleteOp] at hack ⊢
  have hr : req ≠ "" := (deleteMessage_true_state hack).1
  have hshape := (deleteMessage_true_state hack).2
  set st' := (deleteMessage st id req ts true).1 with hst'
  have hindex : st'.index = st.index.filter fun p => !(p.1 == id) := by
    rw [hshape]
  have hlog : st'.log = st.log ++ [Event.deleteE id ts req] := by
    rw [hshape]
    simp
  have hIdx2 : lookupIdx st'.index id = none := by
    rw [hindex]
    exact lookupIdx_filter_self _ _
  have hLook2 : lookupMessageOwner st'.log id = .deletedR := by
    rw [hlog, lookup_append_delete, if_pos rfl]
  have hval : deleteMessage st' id req ts2 true = (st', false) := by
    simp [deleteMessage, hr, hIdx2, hLook2]
  refine ⟨⟨by rw [hval], by rw [hval]⟩, ?_⟩
  intro n log did dts db hex hlen
  have hW : (5000 : Nat) ≤ windowSize n := le_max_right _ _
  have h1 : takeLast (windowSize n) (log ++ [Event.deleteE did dts db]) =
      log ++ [Event.deleteE did dts db] :=
    takeLast_eq_self (by simp only [List.length_append, List.length_cons, List.length_nil]; omega)
  have h2 : takeLast (windowSize n) log = log := takeLast_eq_self (by omega)
  have hmsgs : sliceMsgs (log ++ [Event.deleteE did dts db]) = sliceMsgs log := by
    simp [sliceMsgs, List.filterMap_append]
  have htombs : sliceTombstones (log ++ [Event.deleteE did dts db]) =
      sliceTombstones log ++ (if did = "" then [] else [did]) := by
    by_cases hdid : did = ""
    · simp [sliceTombstones, List.filterMap_append, hdid]
    · simp [sliceTombstones, List.filterMap_append, hdid]
  have hfilter : ∀ m : Msg,
      ((sliceTombstones (log ++ [Event.deleteE did dts db])).contains m.id) =
      ((sliceTombstones log).contains m.id) := by
    intro m
    rw [htombs]
    by_cases hdid : did = ""
    · simp [hdid]
    · rw [if_neg hdid]
      have hmem : did ∈ sliceTombstones log := by
        obtain ⟨dts0, db0, hmem0⟩ := hex
        exact List.mem_filterMap.mpr ⟨Event.deleteE did dts0 db0, hmem0, by simp [hdid]⟩
      rw [Bool.eq_iff_iff, List.elem_iff, List.elem_iff]
      constructor
      · intro hin
        rcases List.mem_append.mp hin with hin | hin
        · exact hin
        · have : m.id = did := by simpa using hin
          exact this ▸ hmem
      · exact List.mem_append_left _
  show readRecentMessages n (some (log ++ [Event.deleteE did dts db])) =
       readRecentMessages n (some log)
  simp only [readRecentMessages]
  rw [h1, h2, hmsgs]
  have hfeq : (sliceMsgs log).filter
        (fun m => !((sliceTombstones (log ++ [Event.deleteE did dts db])).contains m.id)) =
      (sliceMsgs log).filter (fun m => !((sliceTombstones log).contains m.id)) :=
    List.filter_congr (fun m _ => by rw [hfilter m])
  rw [hfeq]

/-- C4 witness: concrete double delete of the only message. -/
theorem idempotent_deletion_witness :
    ((deleteOp (deleteOp stOne "m1" "alice" 5).1 "m1" "alice" 9).2 = false ∧
     (deleteOp (deleteOp stOne "m1" "alice" 5).1 "m1" "alice" 9).1 =
       (deleteOp stOne "m1" "alice" 5).1) ∧
    (∀ (n : Nat) (log : List Event) (did : String) (dts : Nat) (db : String),
       (∃ dts0 db0, Event.deleteE did dts0 db0 ∈ log) → log.length < 5000 →
       recentMessages n (log ++ [Event.deleteE did dts db]) = recentMessages n log) :=
  idempotent_deletion stOne "m1" "alice" 5 9 (by decide)

/-! ### C6: bounded-suffix reconstruction refines the spec description -/

theorem sliceTombstones_of_ids {slice : List Event} (h : ∀ e ∈ slice, eventId e ≠ "") :
    sliceTombstones slice =
      slice.filterMap (fun e =>
        match e with
        | .deleteE did _ _ => some did
        | .createE _ => none) := by
  induction slice with
  | nil => rfl
  | cons e rest ih =>
    have hrest : ∀ e' ∈ rest, eventId e' ≠ "" :=
      fun e' he' => h e' (List.mem_cons_of_mem _ he')
    cases e with
    | createE m =>
        simp only [sliceTombstones, List.filterMap_cons] at *
        exact ih hrest
    | deleteE did ts b =>
        have hdid : did ≠ "" := by simpa [eventId] using h _ (List.mem_cons_self _ _)
        simp only [sliceTombstones, List.filterMap_cons, if_neg hdid] at *
        rw [ih hrest]

theorem sliceMsgs_of_ids {slice : List Event} (h : ∀ e ∈ slice, eventId e ≠ "") :
    sliceMsgs slice =
      slice.filterMap (fun e =>
        match e with
        | .createE m => some m
        | .deleteE _ _ _ => none) := by
  induction slice with
  | nil => rfl
  | cons e rest ih =>
    have hrest : ∀ e' ∈ rest, eventId e' ≠ "" :=
      fun e' he' => h e' (List.mem_cons_of_mem _ he')
    cases e with
    | createE m =>
        have hmid : m.id ≠ "" := by simpa [eventId] using h _ (List.mem_cons_self _ _)
        simp only [sliceMsgs, List.filterMap_cons, if_neg hmid] at *
        rw [ih hrest]
    | deleteE did ts b =>
        simp only [sliceMsgs, List.filterMap_cons] at *
        exact ih hrest

/-- C6: `readRecentMessages(limit)` examines only the last
`max(limit*5, 5000)` records — the scanned suffix has at most that length and
the result depends only on it — and on that suffix it collects the tombstoned
ids, keeps the create records whose id is not tombstoned, sorts ascending by
timestamp and returns the last `limit` entries (the spec-side `specRecent`),
given records with the non-empty ids the generator produces. -/
theorem recent_bounded_suffix (limit : Nat) (log : List Event)
    (h : ∀ e ∈ log, eventId e ≠ "") :
    (takeLast (windowSize limit) log).length ≤ max (limit * 5) 5000 ∧
    recentMessages limit log = specRecent limit (takeLast (windowSize limit) log) ∧
    recentMessages limit log = recentMessages limit (takeLast (windowSize limit) log) := by
  have hs : ∀ e ∈ takeLast (windowSize limit) log, eventId e ≠ "" :=
    fun e he => h e (mem_takeLast he)
  refine ⟨takeLast_length_le _ _, ?_, ?_⟩
  · show readRecentMessages limit (some log) = _
    simp only [readRecentMessages, specRecent]
    rw [sliceTombstones_of_ids hs, sliceMsgs_of_ids hs]
  · show readRecentMessages limit (some log) =
        readRecentMessages limit (some (takeLast (windowSize limit) log))
    simp only [readRecentMessages]
    rw [takeLast_takeLast _ (le_refl (windowSize limit))]

/-- C6 witness: the refinement on a concrete three-record log. -/
theorem recent_bounded_suffix_witness :
    (takeLast (windowSize 2)
        [Event.createE mAlice, Event.createE mBob,
         Event.deleteE "m1" 400 "alice"]).length ≤ max (2 * 5) 5000 ∧
    recentMessages 2 [Event.createE mAlice, Event.createE mBob,
        Event.deleteE "m1" 400 "alice"] =
      specRecent 2 (takeLast (windowSize 2)
        [Event.createE mAlice, Event.createE mBob,
         Event.deleteE "m1" 400 "alice"]) ∧
    recentMessages 2 [Event.createE mAlice, Event.createE mBob,
        Event.deleteE "m1" 400 "alice"] =
      recentMessages 2 (takeLast (windowSize 2)
        [Event.createE mAlice, Event.createE mBob,
         Event.deleteE "m1" 400 "alice"]) :=
  recent_bounded_suffix 2
    [Event.createE mAlice, Event.createE mBob, Event.deleteE "m1" 400 "alice"]
    (by decide)

/-! ### C2: tombstone permanence -/

theorem contains_eq_true_of_mem {l : List String} {a : String} (h : a ∈ l) :
    l.contains a = true :=
  List.elem_eq_true_of_mem h

theorem mem_sliceMsgs {slice : List Event} {r : Msg} (h : r ∈ sliceMsgs slice) :
    Event.createE r ∈ slice ∧ r.id ≠ "" := by
  obtain ⟨e, he, hf⟩ := List.mem_filterMap.mp h
  cases e with
  | deleteE _ _ _ => simp at hf
  | createE m =>
      by_cases hd : m.id = ""
      · simp [hd] at hf
      · have hm : m = r := by simpa [hd] using hf
        exact ⟨hm ▸ he, hm ▸ hd⟩

theorem mem_recent {n : Nat} {log : List Event} {r : Msg}
    (h : r ∈ recentMessages n log) :
    Event.createE r ∈ takeLast (windowSize n) log ∧ r.id ≠ "" ∧
    (sliceTombstones (takeLast (windowSize n) log)).contains r.id = false := by
  simp only [recentMessages, readRecentMessages] at h
  have h1 := mem_takeLast h
  have h2 := (List.mem_insertionSort tsLE).mp h1
  have h3 := List.mem_filter.mp h2
  obtain ⟨hmem, hid⟩ := mem_sliceMsgs h3.1
  refine ⟨hmem, hid, ?_⟩
  have := h3.2
  simpa using this

/-- C2: once a delete of id X has landed after X's create — the log reads
`… create X … delete X …` — X's id appears in no `recent(N)` result for any
`N ∈ [1,1000]`, whatever interleaved creates (with fresh ids) and deletes are
appended afterwards: any scanned suffix containing X's create also contains
the later tombstone. -/
theorem tombstone_permanence (l1 l2 l3 : List Event) (m : Msg) (ts : Nat) (b : String)
    (n : Nat) (hn1 : 1 ≤ n) (hn2 : n ≤ 1000) (hid : m.id ≠ "")
    (hfresh : ∀ m' : Msg, Event.createE m' ∈ l2 ++ l3 → m'.id ≠ m.id) :
    ∀ r ∈ recentMessages n
        ((l1 ++ [Event.createE m]) ++ (l2 ++ Event.deleteE m.id ts b :: l3)),
      r.id ≠ m.id := by
  intro r hr hcontra
  have hn1' : 1 ≤ n := hn1
  have hn2' : n ≤ 1000 := hn2
  obtain ⟨hrs, hrid, hrt⟩ := mem_recent hr
  by_cases hWB : windowSize n ≤ (l2 ++ Event.deleteE m.id ts b :: l3).length
  · rw [takeLast_append_of_ge _ _ hWB] at hrs
    have hrB : Event.createE r ∈ l2 ++ Event.deleteE m.id ts b :: l3 := mem_takeLast hrs
    have hsplit : Event.createE r ∈ l2 ++ l3 ∨
        Event.createE r = Event.deleteE m.id ts b := by
      rcases List.mem_append.mp hrB with hx | hx
      · exact Or.inl (List.mem_append_left _ hx)
      · rcases List.mem_cons.mp hx with hy | hy
        · exact Or.inr hy
        · exact Or.inl (List.mem_append_right _ hy)
    rcases hsplit with hx | hx
    · exact hfresh r hx hcontra
    · simp at hx
  · push_neg at hWB
    have hble : (l2 ++ Event.deleteE m.id ts b :: l3).length ≤ windowSize n :=
      le_of_lt hWB
    rw [takeLast_append_of_le _ _ hble] at hrt
    have hdel : Event.deleteE m.id ts b ∈
        takeLast (windowSize n - (l2 ++ Event.deleteE m.id ts b :: l3).length)
            (l1 ++ [Event.createE m]) ++
          (l2 ++ Event.deleteE m.id ts b :: l3) :=
      List.mem_append_right _ (List.mem_append_right _ (List.mem_cons_self _ _))
    have hmemT : m.id ∈ sliceTombstones
        (takeLast (windowSize n - (l2 ++ Event.deleteE m.id ts b :: l3).length)
            (l1 ++ [Event.createE m]) ++
          (l2 ++ Event.deleteE m.id ts b :: l3)) :=
      List.mem_filterMap.mpr ⟨_, hdel, by simp [hid]⟩
    rw [hcontra] at hrt
    rw [contains_eq_true_of_mem hmemT] at hrt
    exact Bool.true_eq_false.mp hrt

/-- C2 witness: after creating and deleting `m1`, the survivor returned by
a later `recent(10)` is `m2`, whose id differs from the deleted one. -/
theorem tombstone_permanence_witness :
    (mBob.id = mAlice.id) = False :=
  eq_false
    (tombstone_permanence [] [] [Event.createE mBob] mAlice 150 "alice" 10
      (by decide) (by decide) (by decide)
      (by
        intro m' hm'
        simp at hm'
        subst hm'
        decide)
      mBob (by decide))

/-! ### C7: chronological ordering -/

theorem takeLast_map {n : Nat} (f : α → β) (l : List α) :
    takeLast n (l.map f) = (l.map f).drop (l.length - n) := by
  simp [takeLast]

theorem sliceTombstones_map_create (ms : List Msg) :
    sliceTombstones (ms.map Event.createE) = [] := by
  induction ms with
  | nil => rfl
  | cons m rest ih => simp only [List.map_cons, sliceTombstones, List.filterMap_cons]; exact ih

theorem sliceMsgs_map_create {ms : List Msg} (h : ∀ m ∈ ms, m.id ≠ "") :
    sliceMsgs (ms.map Event.createE) = ms := by
  induction ms with
  | nil => rfl
  | cons m rest ih =>
      have hm : m.id ≠ "" := h m (List.mem_cons_self _ _)
      have hrest : ∀ m' ∈ rest, m'.id ≠ "" :=
        fun m' hm' => h m' (List.mem_cons_of_mem _ hm')
      simp only [List.map_cons, sliceMsgs, List.filterMap_cons, if_neg hm]
      congr 1
      exact ih hrest

/-- C7: creates appended with strictly increasing timestamps come back from
`recent(N)` in timestamp order, truncated to the last N (the log is scanned,
nothing is tombstoned, the already-sorted survivors are untouched by the
stable sort); and Scenario D — timestamps 100, 300, 200 appended in that
order — is returned by `recent(3)` sorted as 100, 200, 300. -/
theorem chronological_ordering (ms : List Msg) (n : Nat)
    (hinc : ms.Pairwise fun a c => a.timestamp < c.timestamp)
    (hid : ∀ m ∈ ms, m.id ≠ "") :
    recentMessages n (ms.map Event.createE) = takeLast n ms ∧
    recentMessages 3 [Event.createE mD100, Event.createE mD300, Event.createE mD200] =
      [mD100, mD200, mD300] := by
  constructor
  · show readRecentMessages n (some (ms.map Event.createE)) = takeLast n ms
    simp only [readRecentMessages]
    have hslice : takeLast (windowSize n) (ms.map Event.createE) =
        (takeLast (windowSize n) ms).map Event.createE := by
      simp [takeLast]
    rw [hslice, sliceTombstones_map_create,
      sliceMsgs_map_create (fun m hm => hid m (mem_takeLast hm))]
    have hfil : (takeLast (windowSize n) ms).filter
        (fun m => !(List.contains ([] : List String) m.id)) =
        takeLast (windowSize n) ms := by
      simp
    rw [hfil]
    have hsorted : (takeLast (windowSize n) ms).Pairwise tsLE :=
      ((hinc.sublist (takeLast_sublist _ _)).imp (fun h => le_of_lt h))
    rw [List.Sorted.insertionSort_eq hsorted]
    exact takeLast_takeLast _ (le_trans (by omega : n ≤ n * 5) (le_max_left _ _))
  · decide

/-- C7 witness: two strictly increasing creates and the concrete scenario. -/
theorem chronological_ordering_witness :
    recentMessages 5 ([mAlice, mBob].map Event.createE) = takeLast 5 [mAlice, mBob] ∧
    recentMessages 3 [Event.createE mD100, Event.createE mD300, Event.createE mD200] =
      [mD100, mD200, mD300] :=
  chronological_ordering [mAlice, mBob] 5 (by decide) (by decide)

/-! ### C8: round-trip of a fresh create -/

theorem getLast?_of_sorted_max {m : Msg} {s : List Msg} (hs : s.Sorted tsLE)
    (hm : m ∈ s) (hmax : ∀ x ∈ s, x.timestamp < m.timestamp ∨ x = m) :
    s.getLast? = some m := by
  induction s with
  | nil => cases hm
  | cons a rest ih =>
    cases rest with
    | nil =>
        have hma : m = a := List.mem_singleton.mp hm
        simp [hma]
    | cons bb rest' =>
        have hm' : m ∈ bb :: rest' := by
          rcases List.mem_cons.mp hm with hma | hin
          · rcases hmax bb (List.mem_cons_of_mem _ (List.mem_cons_self _ _)) with hlt | heqb
            · exfalso
              have hab : tsLE a bb := List.rel_of_pairwise_cons hs (List.mem_cons_self _ _)
              have hmb : m.timestamp ≤ bb.timestamp := by rw [hma]; exact hab
              exact absurd (lt_of_le_of_lt hmb hlt) (lt_irrefl _)
            · rw [← heqb]
              exact List.mem_cons_self _ _
          · exact hin
        rw [List.getLast?_cons_cons]
        exact ih hs.of_cons hm'
          (fun x hx => hmax x (List.mem_cons_of_mem _ hx))

/-- C8: appending a create record with a fresh id (no matching delete, no
duplicate create) and a timestamp later than every earlier create, then
reconstructing with any `limit ≥ 1`, surfaces exactly that message — the
result's last element is the appended record itself, with identical id,
username, kind and payload fields. -/
theorem round_trip (l : List Event) (m : Msg) (limit : Nat)
    (hlim : 1 ≤ limit) (hid : m.id ≠ "")
    (hfresh : ∀ e ∈ l, eventId e ≠ m.id)
    (hts : ∀ m' : Msg, Event.createE m' ∈ l → m'.timestamp < m.timestamp) :
    (recentMessages limit (l ++ [Event.createE m])).getLast? = some m := by
  show (readRecentMessages limit (some (l ++ [Event.createE m]))).getLast? = some m
  simp only [readRecentMessages]
  have hsl : takeLast (windowSize limit) (l ++ [Event.createE m]) =
      takeLast (windowSize limit - 1) l ++ [Event.createE m] := by
    have hb : ([Event.createE m] : List Event).length ≤ windowSize limit := by
      have : (5000 : Nat) ≤ windowSize limit := le_max_right _ _
      simp only [List.length_cons, List.length_nil]
      omega
    simpa using takeLast_append_of_le l [Event.createE m] hb
  rw [hsl]
  set l' := takeLast (windowSize limit - 1) l with hl'
  have hsub : ∀ e ∈ l', e ∈ l := fun e he => mem_takeLast he
  have htombs : sliceTombstones (l' ++ [Event.createE m]) = sliceTombstones l' := by
    simp [sliceTombstones, List.filterMap_append]
  have hmsgs : sliceMsgs (l' ++ [Event.createE m]) = sliceMsgs l' ++ [m] := by
    simp [sliceMsgs, List.filterMap_append, hid]
  rw [htombs, hmsgs]
  have hmnotT : (sliceTombstones l').contains m.id = false := by
    cases hc : (sliceTombstones l').contains m.id
    · rfl
    · exfalso
      have hmem : m.id ∈ sliceTombstones l' := List.elem_iff.mp hc
      obtain ⟨e, he, hf⟩ := List.mem_filterMap.mp hmem
      cases e with
      | createE m0 => simp at hf
      | deleteE did dts0 db0 =>
          have hdid : did = m.id := by
            by_cases hd : did = ""
            · simp [hd] at hf
            · simpa [hd] using hf
          exact hfresh _ (hsub _ he) (by simp [eventId, hdid])
  have hfilter : (sliceMsgs l' ++ [m]).filter
        (fun x => !((sliceTombstones l').contains x.id)) =
      (sliceMsgs l').filter (fun x => !((sliceTombstones l').contains x.id)) ++ [m] := by
    rw [List.filter_append]
    congr 1
    simp only [List.filter_cons, hmnotT, Bool.not_false, if_true, List.filter_nil]
  rw [hfilter]
  have hFlt : ∀ x ∈ (sliceMsgs l').filter
      (fun x => !((sliceTombstones l').contains x.id)),
      x.timestamp < m.timestamp := by
    intro x hx
    have hx1 : x ∈ sliceMsgs l' := (List.mem_filter.mp hx).1
    obtain ⟨hxe, _⟩ := mem_sliceMsgs hx1
    exact hts x (hsub _ hxe)
  have hlast : (List.insertionSort tsLE
      ((sliceMsgs l').filter (fun x => !((sliceTombstones l').contains x.id)) ++ [m])).getLast?
        = some m := by
    apply getLast?_of_sorted_max (List.sorted_insertionSort tsLE _)
      ((List.mem_insertionSort tsLE).mpr (List.mem_append_right _ (List.mem_cons_self _ _)))
    intro x hx
    rcases List.mem_append.mp ((List.mem_insertionSort tsLE).mp hx) with hxf | hxm
    · exact Or.inl (hFlt x hxf)
    · exact Or.inr (List.mem_singleton.mp hxm)
  rw [getLast?_takeLast _ hlim, hlast]

/-- C8 witness: appending a fresh later message surfaces it at the end even
with `limit = 1`. -/
theorem round_trip_witness :
    (recentMessages 1 ([Event.createE mAlice] ++ [Event.createE mBob])).getLast? =
      some mBob :=
  round_trip [Event.createE mAlice] mBob 1 (by decide) (by decide)
    (by
      intro e he
      simp at he
      subst he
      decide)
    (by
      intro m' hm'
      simp at hm'
      subst hm'
      decide)

end Rover
